import Mathlib

/-!
# Verification of the JWE envelope core (`jwe.go`)

A shallow embedding of the JWE parse/serialize core of this repository.
Go byte slices and Go strings are both modelled as `List Nat` (byte lists);
Go pointers as `Option`; fallible operations as `Option`/`Except`.

The collaborators that live outside `jwe.go` (base64url codec, the `Header`
value type with its `merge` method, JSON encode/decode of headers,
`newBuffer`, `stripWhitespace`) are modelled from the spec, as documented on
each definition.
-/

namespace Jose

/-- Go `[]byte`, as a list of byte values. -/
abbrev Bytes := List Nat

/-- Go `string`, also a byte list (Go strings are byte strings). -/
abbrev Str := List Nat

/-- Byte codes of a Lean string literal (used to spell ASCII constants). -/
def strBytes (s : String) : Str := s.toList.map Char.toNat

/-- All elements are genuine byte values. -/
def allBytes (bs : Bytes) : Prop := ∀ b ∈ bs, b < 256

instance (bs : Bytes) : Decidable (allBytes bs) := by
  unfold allBytes; infer_instance

/-! ## Base64url codec

Modelled from the spec: "base64url encode/decode primitives" with "no padding
characters" (§6) and "decode failing on invalid alphabet or padding".
The alphabet is the RFC 4648 URL-safe alphabet `A-Z a-z 0-9 - _`;
an input of length ≡ 1 (mod 4) cannot arise from any byte string and is
rejected. -/

/-- ASCII code of the base64url digit for a sextet `n < 64`. -/
def b64Char (n : Nat) : Nat :=
  if n < 26 then 65 + n
  else if n < 52 then 97 + (n - 26)
  else if n < 62 then 48 + (n - 52)
  else if n = 62 then 45 else 95

/-- Sextet value of an ASCII code, `none` when outside the base64url alphabet. -/
def b64Val (c : Nat) : Option Nat :=
  if 65 ≤ c ∧ c ≤ 90 then some (c - 65)
  else if 97 ≤ c ∧ c ≤ 122 then some (c - 97 + 26)
  else if 48 ≤ c ∧ c ≤ 57 then some (c - 48 + 52)
  else if c = 45 then some 62
  else if c = 95 then some 63
  else none

/-- base64url encoding without padding, as ASCII codes. -/
def base64URLEncode : Bytes → Str
  | [] => []
  | [b1] => [b64Char (b1 / 4), b64Char (b1 % 4 * 16)]
  | [b1, b2] => [b64Char (b1 / 4), b64Char (b1 % 4 * 16 + b2 / 16), b64Char (b2 % 16 * 4)]
  | b1 :: b2 :: b3 :: rest =>
      b64Char (b1 / 4) :: b64Char (b1 % 4 * 16 + b2 / 16) ::
      b64Char (b2 % 16 * 4 + b3 / 64) :: b64Char (b3 % 64) :: base64URLEncode rest

/-- Sextet values of a text, `none` if any character is outside the alphabet. -/
def b64Vals : Str → Option (List Nat)
  | [] => some []
  | c :: t =>
      match b64Val c, b64Vals t with
      | some v, some vs => some (v :: vs)
      | _, _ => none

/-- Reassemble bytes from sextets, in groups of four; a single leftover sextet
(length ≡ 1 mod 4) cannot arise from any byte string and is rejected. -/
def sextetsToBytes : List Nat → Option Bytes
  | [] => some []
  | [_] => none
  | [a, b] => some [a * 4 + b / 16]
  | [a, b, c] => some [a * 4 + b / 16, b % 16 * 16 + c / 4]
  | a :: b :: c :: d :: rest =>
      (sextetsToBytes rest).map
        (fun t => (a * 4 + b / 16) :: (b % 16 * 16 + c / 4) :: (c % 4 * 64 + d) :: t)

/-- base64url decoding without padding. Fails on characters outside the
alphabet and on lengths ≡ 1 (mod 4); like Go's decoder it does not reject
non-zero trailing bits. -/
def base64URLDecode (s : Str) : Option Bytes := (b64Vals s).bind sextetsToBytes

theorem b64Val_b64Char : ∀ n, n < 64 → b64Val (b64Char n) = some n := by decide

theorem b64Char_lt (n : Nat) : b64Char n < 128 := by
  unfold b64Char
  split <;> [omega; (split <;> [omega; (split <;> [omega; (split <;> omega)])])]

/-- Every code emitted by the encoder is in the base64url alphabet. -/
theorem encode_mem_val {bs : Bytes} (hb : allBytes bs) :
    ∀ c ∈ base64URLEncode bs, (b64Val c).isSome := by
  induction bs using base64URLEncode.induct with
  | case1 => intro c hc; simp [base64URLEncode] at hc
  | case2 b1 =>
      intro c hc
      have h1 : b1 < 256 := hb b1 (by simp)
      simp only [base64URLEncode, List.mem_cons, List.mem_singleton] at hc
      rcases hc with h | h | h
      · rw [h, b64Val_b64Char _ (by omega)]; rfl
      · rw [h, b64Val_b64Char _ (by omega)]; rfl
      · simp at h
  | case3 b1 b2 =>
      intro c hc
      have h1 : b1 < 256 := hb b1 (by simp)
      have h2 : b2 < 256 := hb b2 (by simp)
      simp only [base64URLEncode, List.mem_cons, List.mem_singleton] at hc
      rcases hc with h | h | h | h
      · rw [h, b64Val_b64Char _ (by omega)]; rfl
      · rw [h, b64Val_b64Char _ (by omega)]; rfl
      · rw [h, b64Val_b64Char _ (by omega)]; rfl
      · simp at h
  | case4 b1 b2 b3 rest ih =>
      intro c hc
      have h1 : b1 < 256 := hb b1 (by simp)
      have h2 : b2 < 256 := hb b2 (by simp)
      have h3 : b3 < 256 := hb b3 (by simp)
      have hrest : allBytes rest := fun b hbmem => hb b (by simp [hbmem])
      simp only [base64URLEncode, List.mem_cons] at hc
      rcases hc with h | h | h | h | h
      · rw [h, b64Val_b64Char _ (by omega)]; rfl
      · rw [h, b64Val_b64Char _ (by omega)]; rfl
      · rw [h, b64Val_b64Char _ (by omega)]; rfl
      · rw [h, b64Val_b64Char _ (by omega)]; rfl
      · exact ih hrest c h

/-- Decoding inverts encoding on genuine byte strings. -/
theorem decode_encode {bs : Bytes} (hb : allBytes bs) :
    base64URLDecode (base64URLEncode bs) = some bs := by
  induction bs using base64URLEncode.induct with
  | case1 => rfl
  | case2 b1 =>
      have h1 : b1 < 256 := hb b1 (by simp)
      simp only [base64URLEncode, base64URLDecode, b64Vals]
      rw [b64Val_b64Char _ (by omega), b64Val_b64Char _ (by omega)]
      simp only [Option.some_bind, sextetsToBytes, Option.some.injEq, List.cons.injEq,
        and_true]
      omega
  | case3 b1 b2 =>
      have h1 : b1 < 256 := hb b1 (by simp)
      have h2 : b2 < 256 := hb b2 (by simp)
      simp only [base64URLEncode, base64URLDecode, b64Vals]
      rw [b64Val_b64Char _ (by omega), b64Val_b64Char _ (by omega),
        b64Val_b64Char _ (by omega)]
      simp only [Option.some_bind, sextetsToBytes, Option.some.injEq, List.cons.injEq,
        and_true]
      omega
  | case4 b1 b2 b3 rest ih =>
      have h1 : b1 < 256 := hb b1 (by simp)
      have h2 : b2 < 256 := hb b2 (by simp)
      have h3 : b3 < 256 := hb b3 (by simp)
      have hrest : allBytes rest := fun b hbmem => hb b (by simp [hbmem])
      have henc := ih hrest
      unfold base64URLDecode at henc ⊢
      obtain ⟨vs, hvs⟩ : ∃ vs, b64Vals (base64URLEncode rest) = some vs := by
        cases hv : b64Vals (base64URLEncode rest) with
        | none => rw [hv] at henc; simp at henc
        | some vs => exact ⟨vs, rfl⟩
      rw [hvs] at henc
      simp only [Option.some_bind] at henc
      simp only [base64URLEncode, b64Vals]
      rw [b64Val_b64Char _ (by omega), b64Val_b64Char _ (by omega),
        b64Val_b64Char _ (by omega), b64Val_b64Char _ (by omega), hvs]
      simp only [Option.some_bind, sextetsToBytes, henc, Option.map_some', Option.map_some,
        Option.some.injEq, List.cons.injEq, and_true]
      omega

/-- A character outside the base64url alphabet anywhere in the input makes
the sextet scan fail. -/
theorem b64Vals_none_of_badChar {s : Str} {c : Nat} (hmem : c ∈ s)
    (hbad : b64Val c = none) : b64Vals s = none := by
  induction s with
  | nil => simp at hmem
  | cons x t ih =>
      simp only [List.mem_cons] at hmem
      unfold b64Vals
      rcases hmem with h | h
      · subst h; rw [hbad]
      · rw [ih h]
        cases b64Val x <;> rfl

/-- A character outside the base64url alphabet anywhere in the input makes
decoding fail. -/
theorem decode_none_of_badChar {s : Str} {c : Nat} (hmem : c ∈ s)
    (hbad : b64Val c = none) : base64URLDecode s = none := by
  unfold base64URLDecode
  rw [b64Vals_none_of_badChar hmem hbad]
  rfl

/-! ## Splitting and whitespace

`splitOnByte 46` models Go's `strings.Split(input, ".")` (src/jwe.go:167);
`stripWhitespace` is modelled from the spec: "Strip all whitespace from the
input" (§4.1), with ASCII whitespace space/tab/LF/CR. -/

/-- Split a byte string on a separator byte, Go `strings.Split` semantics:
the result always has one more element than the number of separators. -/
def splitOnByte (sep : Nat) : Str → List Str
  | [] => [[]]
  | c :: t =>
      if c = sep then [] :: splitOnByte sep t
      else
        match splitOnByte sep t with
        | [] => [[c]]
        | s :: rest => (c :: s) :: rest

theorem splitOnByte_ne_nil (sep : Nat) (s : Str) : splitOnByte sep s ≠ [] := by
  induction s with
  | nil => simp [splitOnByte]
  | cons c t ih =>
      unfold splitOnByte
      split
      · simp
      · cases h : splitOnByte sep t <;> simp

/-- A separator-free string splits to itself alone. -/
theorem splitOnByte_no_sep {sep : Nat} {s : Str} (h : ∀ c ∈ s, c ≠ sep) :
    splitOnByte sep s = [s] := by
  induction s with
  | nil => rfl
  | cons c t ih =>
      unfold splitOnByte
      rw [if_neg (h c (by simp))]
      rw [ih (fun x hx => h x (by simp [hx]))]

/-- Splitting a string that starts with a separator-free chunk followed by a
separator peels off that chunk. -/
theorem splitOnByte_append {sep : Nat} {a r : Str} (h : ∀ c ∈ a, c ≠ sep) :
    splitOnByte sep (a ++ sep :: r) = a :: splitOnByte sep r := by
  induction a with
  | nil => simp [splitOnByte]
  | cons c t ih =>
      have hc : c ≠ sep := h c (by simp)
      have ht : ∀ x ∈ t, x ≠ sep := fun x hx => h x (by simp [hx])
      simp only [List.cons_append, splitOnByte, if_neg hc, List.append_eq]
      rw [ih ht]

/-- Whitespace per the spec's "strip all whitespace": ASCII space, tab, LF, CR. -/
def isSpaceByte (c : Nat) : Bool := c = 32 || c = 9 || c = 10 || c = 13

/-- Modelled from the spec: "Strip all whitespace from the input" (§4.1). -/
def stripWhitespace (s : Str) : Str := s.filter (fun c => !isSpaceByte c)

theorem stripWhitespace_id {s : Str} (h : ∀ c ∈ s, isSpaceByte c = false) :
    stripWhitespace s = s := by
  unfold stripWhitespace
  rw [List.filter_eq_self]
  intro a ha
  simp [h a ha]

/-! ## The Header value type

Modelled from the spec: the header is "an opaque ordered mapping from string
keys to values, exposing at least the two reserved keys `alg` and `enc`"
(§1), with merge semantics of §4.3: entries of a later mapping overwrite an
earlier mapping's entry for the same key. Keys and values are byte strings. -/

/-- An ordered mapping from string keys to string values. -/
abbrev Header := List (Str × Str)

/-- Set `k := v` in the mapping: overwrite the entry for `k` in place if one
exists, otherwise append a new entry. -/
def hinsert : Header → Str → Str → Header
  | [], k, v => [(k, v)]
  | p :: t, k, v => if p.1 = k then (k, v) :: t else p :: hinsert t k v

/-- Look up the value for a key; a later entry overrides an earlier one. -/
def hget : Header → Str → Option Str
  | [], _ => none
  | p :: t, k =>
      match hget t k with
      | some v => some v
      | none => if p.1 = k then some p.2 else none

/-- Modelled from the spec (§4.3): `Header.merge` applies each entry of the
(possibly absent) source mapping over the destination, later entries
overwriting earlier ones; an absent source is skipped. This is the `merge`
method of the external `Header` type called by `mergedHeaders`. -/
def Header.merge (dst : Header) (src : Option Header) : Header :=
  match src with
  | none => dst
  | some s => s.foldl (fun acc p => hinsert acc p.1 p.2) dst

/-- The effective `alg` entry, empty string when absent (Go's zero value). -/
def getAlg (h : Header) : Str := (hget h (strBytes "alg")).getD []

/-- The effective `enc` entry, empty string when absent (Go's zero value). -/
def getEnc (h : Header) : Str := (hget h (strBytes "enc")).getD []

/-- Keys occur at most once (holds for every mapping built by `hinsert`). -/
def keysNodup (h : Header) : Prop := (h.map Prod.fst).Nodup

theorem hget_none_of_not_mem {h : Header} {k : Str}
    (hk : k ∉ h.map Prod.fst) : hget h k = none := by
  induction h with
  | nil => rfl
  | cons p t ih =>
      simp only [List.map_cons, List.mem_cons, not_or] at hk
      unfold hget
      rw [ih hk.2, if_neg (fun hh => hk.1 hh.symm)]

theorem keys_hinsert (h : Header) (k v : Str) :
    (hinsert h k v).map Prod.fst =
      if k ∈ h.map Prod.fst then h.map Prod.fst else h.map Prod.fst ++ [k] := by
  induction h with
  | nil => simp [hinsert]
  | cons p t ih =>
      unfold hinsert
      by_cases hp : p.1 = k
      · subst hp
        simp
      · rw [if_neg hp]
        simp only [List.map_cons, ih, List.mem_cons]
        by_cases hk : k ∈ t.map Prod.fst
        · rw [if_pos hk, if_pos (Or.inr hk)]
        · rw [if_neg hk,
            if_neg (by rintro (hh | hh); exact hp hh.symm; exact hk hh)]
          rw [List.cons_append]

theorem hinsert_keysNodup {h : Header} (hnd : keysNodup h) (k v : Str) :
    keysNodup (hinsert h k v) := by
  unfold keysNodup at hnd ⊢
  rw [keys_hinsert]
  by_cases hk : k ∈ h.map Prod.fst
  · rwa [if_pos hk]
  · rw [if_neg hk, List.nodup_append]
    refine ⟨hnd, List.nodup_singleton _, ?_⟩
    intro a ha hb
    simp only [List.mem_singleton] at hb
    subst hb
    exact hk ha

theorem hget_hinsert {h : Header} (hnd : keysNodup h) (k v k' : Str) :
    hget (hinsert h k v) k' = if k' = k then some v else hget h k' := by
  induction h with
  | nil =>
      simp only [hinsert, hget]
      by_cases hk : k' = k
      · subst hk; simp
      · rw [if_neg hk, if_neg (fun hh => hk hh.symm)]
  | cons p t ih =>
      unfold keysNodup at hnd
      simp only [List.map_cons, List.nodup_cons] at hnd
      have hnotin : p.1 ∉ t.map Prod.fst := hnd.1
      have hnd' : keysNodup t := hnd.2
      unfold hinsert
      by_cases hp : p.1 = k
      · subst hp
        rw [if_pos rfl]
        have htail : hget t p.1 = none := hget_none_of_not_mem hnotin
        unfold hget
        by_cases hk : k' = p.1
        · subst hk
          rw [htail, if_pos rfl, if_pos rfl]
        · rw [if_neg hk]
          cases hgt : hget t k' with
          | some w => rfl
          | none =>
              rw [if_neg (fun hh => hk hh.symm), if_neg (fun hh => hk hh.symm)]
      · rw [if_neg hp]
        unfold hget
        rw [ih hnd']
        by_cases hk : k' = k
        · subst hk
          rw [if_pos rfl, if_pos rfl]
        · rw [if_neg hk, if_neg hk]

theorem merge_keysNodup {dst : Header} (hnd : keysNodup dst) (src : Header) :
    keysNodup (Header.merge dst (some src)) := by
  induction src generalizing dst with
  | nil => exact hnd
  | cons p t ih =>
      show keysNodup (Header.merge (hinsert dst p.1 p.2) (some t))
      exact ih (hinsert_keysNodup hnd p.1 p.2)

/-- Lookup in a merged mapping: the source's entry wins when present. -/
theorem hget_merge {dst : Header} (hnd : keysNodup dst) (src : Header) (k : Str) :
    hget (Header.merge dst (some src)) k =
      match hget src k with
      | some v => some v
      | none => hget dst k := by
  induction src generalizing dst with
  | nil => rfl
  | cons p t ih =>
      show hget (Header.merge (hinsert dst p.1 p.2) (some t)) k = _
      rw [ih (hinsert_keysNodup hnd p.1 p.2)]
      cases ht : hget t k with
      | some v => simp only [hget, ht]
      | none =>
          simp only [hget, ht]
          rw [hget_hinsert hnd]
          by_cases hk : k = p.1
          · subst hk
            rw [if_pos rfl, if_pos rfl]
          · rw [if_neg hk, if_neg (fun hh => hk hh.symm)]

/-! ## JSON codec for headers

Modelled from the spec: "JSON text encoding/decoding primitives" are opaque
collaborators (§1). We model them concretely for headers: the canonical
serialization of a mapping is the JSON object text
`\x7b"k":"v",...\x7d` (no escaping — adequate for header strings that avoid
the `"` and `,` delimiter bytes), a `nil` header pointer serializes to
`null`, and the decoder additionally tolerates insignificant leading
whitespace, so distinct byte texts can decode to the same header (the
property §3/§4.4 of the spec rely on when mandating origin-byte retention). -/

/-- The four JSON texts `null`. -/
def nullBytes : Str := [110, 117, 108, 108]

/-- One `"key":"value"` member. -/
def encodePair (p : Str × Str) : Str :=
  34 :: p.1 ++ 34 :: 58 :: 34 :: p.2 ++ [34]

/-- Comma-separated members. -/
def encodePairs : List (Str × Str) → Str
  | [] => []
  | [p] => encodePair p
  | p :: rest => encodePair p ++ 44 :: encodePairs rest

/-- The canonical JSON object text of a mapping. -/
def serializeHeaderBytes (h : Header) : Str := 123 :: encodePairs h ++ [125]

/-- Modelled from the spec: canonical JSON serialization of a (possibly nil)
header pointer, as used by `mustSerializeJSON` in the source; a nil pointer
serializes to `null`. -/
def mustSerializeJSON : Option Header → Str
  | none => nullBytes
  | some h => serializeHeaderBytes h

/-- Read bytes up to an unescaped closing quote. -/
def readStr : Str → Option (Str × Str)
  | [] => none
  | c :: t =>
      if c = 34 then some ([], t)
      else
        match readStr t with
        | some (s, r) => some (c :: s, r)
        | none => none

/-- Decode one `"key":"value"` member. -/
def decodePairStr (s : Str) : Option (Str × Str) :=
  match s with
  | [] => none
  | c :: rest =>
      if c = 34 then
        match readStr rest with
        | none => none
        | some (k, r1) =>
            match r1 with
            | c1 :: c2 :: r2 =>
                if c1 = 58 ∧ c2 = 34 then
                  match readStr r2 with
                  | none => none
                  | some (v, r3) => if r3 = [] then some (k, v) else none
                else none
            | _ => none
      else none

/-- Decode a comma-separated member list. -/
def decodeAll : List Str → Option Header
  | [] => some []
  | s :: t =>
      match decodePairStr s, decodeAll t with
      | some p, some r => some (p :: r)
      | _, _ => none

/-- Decode a JSON object text into a mapping. -/
def decodeHeaderObj (l : Str) : Option Header :=
  match l with
  | [] => none
  | c :: rest =>
      if c = 123 then
        if rest.getLast? = some 125 then
          if rest.dropLast.isEmpty then some []
          else decodeAll (splitOnByte 44 rest.dropLast)
        else none
      else none

/-- Modelled from the spec: JSON decoding of header bytes into a `*Header`
target (`json.Unmarshal(bytes, &obj.protectedHeader)`, src/jwe.go:124): leading
whitespace is insignificant, `null` yields a nil header pointer. -/
def headerPtrOfBytes (l : Str) : Option (Option Header) :=
  if l.dropWhile (fun c => isSpaceByte c) = nullBytes then some none
  else (decodeHeaderObj (l.dropWhile (fun c => isSpaceByte c))).map some

/-- Modelled from the spec: JSON decoding of header bytes into a `Header`
value target (`var protected Header; json.Unmarshal(rawProtected,
&protected)`, src/jwe.go:177-181): `null` leaves the zero value (an empty
mapping). -/
def headerValOfBytes (l : Str) : Option Header :=
  if l.dropWhile (fun c => isSpaceByte c) = nullBytes then some []
  else decodeHeaderObj (l.dropWhile (fun c => isSpaceByte c))

/-- Wellformed header strings: byte-valued, and free of the `"` and `,`
delimiters the modelled JSON codec does not escape. -/
def okStr (s : Str) : Prop := ∀ c ∈ s, c < 256 ∧ c ≠ 34 ∧ c ≠ 44

/-- Wellformed header: every key and value is a wellformed string. -/
def okHeader (h : Header) : Prop := ∀ p ∈ h, okStr p.1 ∧ okStr p.2

instance (s : Str) : Decidable (okStr s) := by unfold okStr; infer_instance

instance (h : Header) : Decidable (okHeader h) := by
  unfold okHeader; infer_instance

theorem readStr_append {s r : Str} (hs : 34 ∉ s) :
    readStr (s ++ 34 :: r) = some (s, r) := by
  induction s with
  | nil => simp [readStr]
  | cons c t ih =>
      simp only [List.mem_cons, not_or] at hs
      have hc : ¬ c = 34 := fun hh => hs.1 hh.symm
      simp only [List.cons_append, readStr, List.append_eq, if_neg hc, ih hs.2]

theorem decodePairStr_encodePair {p : Str × Str} (hk : 34 ∉ p.1) (hv : 34 ∉ p.2) :
    decodePairStr (encodePair p) = some p := by
  unfold encodePair
  simp only [List.cons_append, decodePairStr, if_true]
  rw [show (p.1 ++ 34 :: 58 :: 34 :: p.2 ++ [34] : Str)
      = p.1 ++ 34 :: (58 :: 34 :: p.2 ++ [34]) by simp,
    readStr_append hk,
    show (58 :: 34 :: p.2 ++ [34] : Str) = 58 :: 34 :: (p.2 ++ 34 :: []) by simp]
  simp only []
  rw [readStr_append hv]
  simp

theorem encodePair_mem_cases {p : Str × Str} {c : Nat} (hc : c ∈ encodePair p) :
    c ∈ p.1 ∨ c ∈ p.2 ∨ c = 34 ∨ c = 58 := by
  unfold encodePair at hc
  simp only [List.cons_append, List.mem_cons, List.mem_append,
    List.mem_singleton] at hc
  tauto

theorem encodePair_no_comma {p : Str × Str} (hp : okStr p.1 ∧ okStr p.2) :
    ∀ c ∈ encodePair p, c ≠ 44 := by
  intro c hc
  rcases encodePair_mem_cases hc with h | h | h | h
  · exact (hp.1 c h).2.2
  · exact (hp.2 c h).2.2
  · omega
  · omega

theorem encodePair_lt {p : Str × Str} (hp : okStr p.1 ∧ okStr p.2) :
    ∀ c ∈ encodePair p, c < 256 := by
  intro c hc
  rcases encodePair_mem_cases hc with h | h | h | h
  · exact (hp.1 c h).1
  · exact (hp.2 c h).1
  · omega
  · omega

theorem encodePairs_lt {h : Header} (hok : okHeader h) :
    ∀ c ∈ encodePairs h, c < 256 := by
  induction h with
  | nil => intro c hc; simp [encodePairs] at hc
  | cons p t ih =>
      intro c hc
      cases t with
      | nil => exact encodePair_lt (hok p (by simp)) c hc
      | cons q s =>
          rcases List.mem_append.mp hc with h1 | h1
          · exact encodePair_lt (hok p (by simp)) c h1
          · rcases List.mem_cons.mp h1 with h2 | h2
            · omega
            · exact ih (fun r hr => hok r (List.mem_cons_of_mem p hr)) c h2

/-- The canonical header serialization consists of genuine bytes. -/
theorem serialize_allBytes {h : Header} (hok : okHeader h) :
    allBytes (serializeHeaderBytes h) := by
  intro c hc
  unfold serializeHeaderBytes at hc
  rcases List.mem_cons.mp hc with h1 | h1
  · omega
  · rcases List.mem_append.mp h1 with h2 | h2
    · exact encodePairs_lt hok c h2
    · simp only [List.mem_singleton] at h2
      omega

theorem splitOnByte_encodePairs {h : Header} (hok : okHeader h) (hne : h ≠ []) :
    splitOnByte 44 (encodePairs h) = h.map encodePair := by
  induction h with
  | nil => exact absurd rfl hne
  | cons p t ih =>
      cases t with
      | nil =>
          show splitOnByte 44 (encodePair p) = [encodePair p]
          exact splitOnByte_no_sep (encodePair_no_comma (hok p (by simp)))
      | cons q s =>
          show splitOnByte 44 (encodePair p ++ 44 :: encodePairs (q :: s)) = _
          rw [splitOnByte_append (encodePair_no_comma (hok p (by simp)))]
          rw [ih (fun r hr => hok r (List.mem_cons_of_mem p hr)) (by simp)]
          rfl

theorem decodeAll_map_encodePair {h : Header} (hok : okHeader h) :
    decodeAll (h.map encodePair) = some h := by
  induction h with
  | nil => rfl
  | cons p t ih =>
      have hp := hok p (by simp)
      have hk : 34 ∉ p.1 := fun hm => (hp.1 34 hm).2.1 rfl
      have hv : 34 ∉ p.2 := fun hm => (hp.2 34 hm).2.1 rfl
      simp only [List.map_cons, decodeAll,
        decodePairStr_encodePair hk hv,
        ih (fun r hr => hok r (List.mem_cons_of_mem p hr))]

/-- The modelled JSON codec round-trips the canonical serialization. -/
theorem decodeHeaderObj_cons (c : Nat) (rest : Str) :
    decodeHeaderObj (c :: rest) =
      if c = 123 then
        if rest.getLast? = some 125 then
          if rest.dropLast.isEmpty then some []
          else decodeAll (splitOnByte 44 rest.dropLast)
        else none
      else none := rfl

theorem decodeHeaderObj_serialize {h : Header} (hok : okHeader h) :
    decodeHeaderObj (serializeHeaderBytes h) = some h := by
  unfold serializeHeaderBytes
  rw [List.cons_append, decodeHeaderObj_cons 123 (encodePairs h ++ [125]), if_pos rfl]
  rw [List.getLast?_concat, if_pos rfl, List.dropLast_concat]
  cases hcase : h with
  | nil => simp [encodePairs]
  | cons p t =>
      have hne' : encodePairs h ≠ [] := by
        rw [hcase]
        cases t <;> simp [encodePairs, encodePair]
      rw [← hcase]
      rw [if_neg (by simpa [List.isEmpty_iff] using hne')]
      rw [splitOnByte_encodePairs hok (by rw [hcase]; simp)]
      exact decodeAll_map_encodePair hok

/-- The serialization starts with the byte `\x7b`; in particular it is not
`null` and carries no leading whitespace. -/
theorem dropWhileSpace_serialize (h : Header) :
    (serializeHeaderBytes h).dropWhile (fun c => isSpaceByte c)
      = serializeHeaderBytes h := rfl

theorem serialize_ne_nullBytes (h : Header) :
    serializeHeaderBytes h ≠ nullBytes := by
  unfold serializeHeaderBytes nullBytes
  intro hh
  have := List.head_eq_of_cons_eq hh
  omega

theorem headerValOfBytes_serialize {h : Header} (hok : okHeader h) :
    headerValOfBytes (serializeHeaderBytes h) = some h := by
  unfold headerValOfBytes
  rw [dropWhileSpace_serialize, if_neg (serialize_ne_nullBytes h)]
  exact decodeHeaderObj_serialize hok

theorem headerPtrOfBytes_serialize {h : Header} (hok : okHeader h) :
    headerPtrOfBytes (serializeHeaderBytes h) = some (some h) := by
  unfold headerPtrOfBytes
  rw [dropWhileSpace_serialize, if_neg (serialize_ne_nullBytes h)]
  rw [decodeHeaderObj_serialize hok]
  rfl

/-! ## Data model (src/jwe.go:25-56)

`*Header` pointers are `Option Header`; `*encodedBuffer` pointers are
`Option Bytes` (an `encodedBuffer` holds the decoded bytes and renders as
base64url text). `aad` is `Option Bytes` because the source branches on its
nil-ness (src/jwe.go:60, 93); the remaining `[]byte` fields conflate Go's
nil and empty slices as `[]`. -/

/-- `rawRecipientInfo` (src/jwe.go:39-42): per-recipient JSON object. -/
structure rawRecipientInfo where
  Header : Option Header
  EncryptedKey : Str
  deriving DecidableEq, Repr

/-- `rawJsonWebEncryption` (src/jwe.go:26-36): the raw JWE JSON object.
A `none` models a nil pointer (an omitted field); `Recipients = []` models
an absent or empty array. -/
structure rawJsonWebEncryption where
  Protected : Option Bytes
  Unprotected : Option Header
  Header : Option Header
  Recipients : List rawRecipientInfo
  Aad : Option Bytes
  EncryptedKey : Option Bytes
  Iv : Option Bytes
  Ciphertext : Option Bytes
  Tag : Option Bytes
  deriving DecidableEq, Repr

instance : Inhabited rawJsonWebEncryption :=
  ⟨⟨none, none, none, [], none, none, none, none, none⟩⟩

/-- `recipientInfo` (src/jwe.go:53-56): one parsed recipient. -/
structure recipientInfo where
  header : Option Header
  encryptedKey : Bytes
  deriving DecidableEq, Repr

instance : Inhabited recipientInfo := ⟨⟨none, []⟩⟩

/-- `JsonWebEncryption` (src/jwe.go:45-50): the parsed envelope. The Go
field `protected` is a Lean keyword; it is named `protectedHeader` here,
as in the spec's data model (§3). -/
structure JsonWebEncryption where
  protectedHeader : Option Header
  unprotected : Option Header
  recipients : List recipientInfo
  aad : Option Bytes
  iv : Bytes
  ciphertext : Bytes
  tag : Bytes
  original : Option rawJsonWebEncryption
  deriving DecidableEq, Repr

/-- Parse errors (spec §7). The source reports them as distinct `error`
values built with `fmt.Errorf`; the constructors carry the spec's names. -/
inductive ParseError where
  | base64Error
  | jsonSyntaxError
  | malformedHeader
  | malformedCompact
  | missingAlgEnc
  deriving DecidableEq, Repr

/-- The only serialization error: `ErrNotSupported` (src/jwe.go:230), the
spec's `UnsupportedShapeError`. -/
inductive SerializeError where
  | unsupportedShape
  deriving DecidableEq, Repr

/-- Modelled from the spec: `newBuffer` wraps bytes for serialization, and a
field that is "absent/empty" is omitted from the output (§4.2, §6); `none`
stands for a nil buffer pointer, which `omitempty` drops. -/
def newBuffer (b : Bytes) : Option Bytes :=
  if b.isEmpty then none else some b

/-- Modelled from the spec: `base64()` of an `encodedBuffer` pointer is the
base64url text of its bytes; absent bytes render as the empty text. -/
def bufferBase64 (b : Option Bytes) : Str := base64URLEncode (b.getD [])

/-! ## Envelope operations (src/jwe.go:58-99) -/

/-- `mergedHeaders` (src/jwe.go:70-80): protected, then unprotected, then
the recipient's header, merged over an initially empty mapping. -/
def mergedHeaders (obj : JsonWebEncryption) (recipient : Option recipientInfo) :
    Header :=
  let out := Header.merge [] obj.protectedHeader
  let out := Header.merge out obj.unprotected
  match recipient with
  | none => out
  | some r => Header.merge out r.header

/-- `computeAuthData` (src/jwe.go:83-99): base64url of the origin protected
bytes when parsed, else of the canonical serialization; plus `.` and
base64url of `aad` when `aad` is non-nil. -/
def computeAuthData (obj : JsonWebEncryption) : Bytes :=
  let protectedStr : Str :=
    match obj.original with
    | some orig => bufferBase64 orig.Protected
    | none => base64URLEncode (mustSerializeJSON obj.protectedHeader)
  match obj.aad with
  | none => protectedStr
  | some aad => protectedStr ++ 46 :: base64URLEncode aad

/-! ## Parsing (src/jwe.go:101-225) -/

/-- The protected-header stage of `parseEncryptedFull` (src/jwe.go:123-128):
decode `parsed.Protected` when present and non-empty; a failure of the inner
`json.Unmarshal` is the "invalid protected header" error. -/
def parseProtectedStage (parsed : rawJsonWebEncryption) :
    Except ParseError (Option Header) :=
  match parsed.Protected with
  | some bs =>
      if 0 < bs.length then
        match headerPtrOfBytes bs with
        | some h => .ok h
        | none => .error .malformedHeader
      else .ok none
  | none => .ok none

/-- The recipient loop of `parseEncryptedFull` (src/jwe.go:138-148): decode
each entry's encrypted key from base64url, stopping at the first failure. -/
def decodeRecipients : List rawRecipientInfo →
    Except ParseError (List recipientInfo)
  | [] => .ok []
  | r :: t =>
      match base64URLDecode r.EncryptedKey with
      | none => .error .base64Error
      | some k =>
          match decodeRecipients t with
          | .ok rest => .ok (⟨r.Header, k⟩ :: rest)
          | .error e => .error e

/-- The recipient-building stage of `parseEncryptedFull` (src/jwe.go:130-148):
an absent or empty `recipients` array synthesizes one recipient from the
flattened fields. -/
def buildRecipientsStage (parsed : rawJsonWebEncryption) :
    Except ParseError (List recipientInfo) :=
  if parsed.Recipients.isEmpty then
    .ok [⟨parsed.Header, parsed.EncryptedKey.getD []⟩]
  else decodeRecipients parsed.Recipients

/-- Assembly of the parsed envelope (src/jwe.go:119-121, 157-160). -/
def assembleEnvelope (parsed : rawJsonWebEncryption) (ph : Option Header)
    (recips : List recipientInfo) : JsonWebEncryption :=
  { protectedHeader := ph
    unprotected := parsed.Unprotected
    recipients := recips
    aad := parsed.Aad
    iv := parsed.Iv.getD []
    ciphertext := parsed.Ciphertext.getD []
    tag := parsed.Tag.getD []
    original := some parsed }

/-- The merged-header validation loop (src/jwe.go:150-155). -/
def hasBadRecipient (obj : JsonWebEncryption) : Bool :=
  obj.recipients.any fun r =>
    decide (getAlg (mergedHeaders obj (some r)) = []) ||
    decide (getEnc (mergedHeaders obj (some r)) = [])

/-- `parseEncryptedFull` (src/jwe.go:112-163), starting from the JSON object
already unmarshalled into `rawJsonWebEncryption` (the top-level
`json.Unmarshal` of line 114 is the external JSON collaborator). -/
def parseEncryptedFull (parsed : rawJsonWebEncryption) :
    Except ParseError JsonWebEncryption :=
  match parseProtectedStage parsed with
  | .error e => .error e
  | .ok ph =>
      match buildRecipientsStage parsed with
      | .error e => .error e
      | .ok recips =>
          if hasBadRecipient (assembleEnvelope parsed ph recips) then
            .error .missingAlgEnc
          else .ok (assembleEnvelope parsed ph recips)

/-- `parseEncryptedCompact` (src/jwe.go:166-225). Stages occur in source
order: segment count, protected decode, header parse, alg/enc check, then
the four remaining segment decodes. -/
def parseEncryptedCompact (input : Str) :
    Except ParseError JsonWebEncryption :=
  match splitOnByte 46 input with
  | [p0, p1, p2, p3, p4] =>
      match base64URLDecode p0 with
      | none => .error .base64Error
      | some rawProtected =>
          match headerValOfBytes rawProtected with
          | none => .error .malformedHeader
          | some protectedHdr =>
              if getAlg protectedHdr = [] ∨ getEnc protectedHdr = [] then
                .error .missingAlgEnc
              else
                match base64URLDecode p1 with
                | none => .error .base64Error
                | some encryptedKey =>
                    match base64URLDecode p2 with
                    | none => .error .base64Error
                    | some iv =>
                        match base64URLDecode p3 with
                        | none => .error .base64Error
                        | some ciphertext =>
                            match base64URLDecode p4 with
                            | none => .error .base64Error
                            | some tag =>
                                .ok
                                  { protectedHeader := some protectedHdr
                                    unprotected := none
                                    recipients := [⟨none, encryptedKey⟩]
                                    aad := none
                                    iv := iv
                                    ciphertext := ciphertext
                                    tag := tag
                                    original := some
                                      { Protected := some rawProtected
                                        Unprotected := none
                                        Header := none
                                        Recipients := []
                                        Aad := none
                                        EncryptedKey := some encryptedKey
                                        Iv := some iv
                                        Ciphertext := some ciphertext
                                        Tag := some tag } }
  | _ => .error .malformedCompact

/-- `ParseEncrypted` (src/jwe.go:102-109): strip whitespace, then dispatch on
a leading `\x7b`. The external JSON unmarshaller for the full form is a
parameter; the compact path never consults it. -/
def ParseEncrypted (jsonUnmarshal : Str → Option rawJsonWebEncryption)
    (input : Str) : Except ParseError JsonWebEncryption :=
  if (stripWhitespace input).headD 0 = 123 then
    match jsonUnmarshal (stripWhitespace input) with
    | none => .error .jsonSyntaxError
    | some parsed => parseEncryptedFull parsed
  else parseEncryptedCompact (stripWhitespace input)

/-! ## Serialization (src/jwe.go:227-273) -/

/-- `CompactSerialize` (src/jwe.go:228-242). Go evaluates
`obj.recipients[0]`, so the envelope invariant `recipients ≠ []` is assumed
wherever this is reasoned about. -/
def CompactSerialize (obj : JsonWebEncryption) :
    Except SerializeError Str :=
  if 1 < obj.recipients.length ∨ obj.unprotected ≠ none ∨
      (obj.recipients.headD default).header ≠ none then
    .error .unsupportedShape
  else
    .ok (base64URLEncode (mustSerializeJSON obj.protectedHeader) ++
      46 :: base64URLEncode (obj.recipients.headD default).encryptedKey ++
      46 :: base64URLEncode obj.iv ++
      46 :: base64URLEncode obj.ciphertext ++
      46 :: base64URLEncode obj.tag)

/-- `FullSerialize` (src/jwe.go:245-273), up to the final JSON rendering:
the raw object handed to `mustSerializeJSON`. Note the struct initializer
(line 250) sets `EncryptedKey` from the first recipient before the
recipient-count branch. -/
def fullSerializeRaw (obj : JsonWebEncryption) : rawJsonWebEncryption :=
  let first := obj.recipients.headD default
  let raw0 : rawJsonWebEncryption :=
    { Protected := none
      Unprotected := obj.unprotected
      Header := none
      Recipients := []
      Aad := (obj.aad.getD []) |> newBuffer
      EncryptedKey := newBuffer first.encryptedKey
      Iv := newBuffer obj.iv
      Ciphertext := newBuffer obj.ciphertext
      Tag := newBuffer obj.tag }
  let raw1 :=
    if 1 < obj.recipients.length then
      { raw0 with Recipients := obj.recipients.map fun r =>
          ⟨r.header, base64URLEncode r.encryptedKey⟩ }
    else
      { raw0 with Header := first.header
                  EncryptedKey := newBuffer first.encryptedKey }
  { raw1 with Protected := newBuffer (mustSerializeJSON obj.protectedHeader) }

/-- Field names present in the JSON text `FullSerialize` emits, per Go
`omitempty`: a nil pointer or empty slice is omitted. -/
def emittedFields (raw : rawJsonWebEncryption) : List String :=
  (if raw.Protected ≠ none then ["protected"] else []) ++
  (if raw.Unprotected ≠ none then ["unprotected"] else []) ++
  (if raw.Header ≠ none then ["header"] else []) ++
  (if raw.Recipients ≠ [] then ["recipients"] else []) ++
  (if raw.Aad ≠ none then ["aad"] else []) ++
  (if raw.EncryptedKey ≠ none then ["encrypted_key"] else []) ++
  (if raw.Iv ≠ none then ["iv"] else []) ++
  (if raw.Ciphertext ≠ none then ["ciphertext"] else []) ++
  (if raw.Tag ≠ none then ["tag"] else [])

/-! ## Shared lemmas about the operations -/

/-- `hget` through an optional merge source. -/
theorem hget_mergeOpt {dst : Header} (hnd : keysNodup dst)
    (src : Option Header) (k : Str) :
    hget (Header.merge dst src) k =
      match hget (src.getD []) k with
      | some v => some v
      | none => hget dst k := by
  cases src with
  | none => rfl
  | some s => exact hget_merge hnd s k

theorem mergeOpt_keysNodup {dst : Header} (hnd : keysNodup dst)
    (src : Option Header) : keysNodup (Header.merge dst src) := by
  cases src with
  | none => exact hnd
  | some s => exact merge_keysNodup hnd s

theorem keysNodup_nil : keysNodup [] := List.nodup_nil

/-- The merged-header lookup described by the spec (§4.3): the recipient
mapping's entry wins, then the unprotected mapping's, then the protected
mapping's; absent mappings are skipped. -/
def mergeSpecLookup (p u rh : Option Header) (k : Str) : Option Str :=
  match hget (rh.getD []) k with
  | some v => some v
  | none =>
      match hget (u.getD []) k with
      | some v => some v
      | none => hget (p.getD []) k

/-- **C9.** The merged header for a recipient applies the entries of each
present mapping over an initially empty result in the order protected, then
unprotected, then recipient header, a later mapping's entry for a key
overwriting an earlier one and absent mappings skipped: observationally,
every lookup in `mergedHeaders` gives the recipient's entry when present,
else the unprotected entry, else the protected entry. (No mapping is
mutated: all operations are pure functions of their arguments.) -/
theorem mergedHeaders_eq_mergeSpecLookup (obj : JsonWebEncryption)
    (r : recipientInfo) (k : Str) :
    hget (mergedHeaders obj (some r)) k =
      mergeSpecLookup obj.protectedHeader obj.unprotected r.header k := by
  unfold mergedHeaders mergeSpecLookup
  have nd1 : keysNodup (Header.merge [] obj.protectedHeader) :=
    mergeOpt_keysNodup keysNodup_nil _
  have nd2 : keysNodup
      (Header.merge (Header.merge [] obj.protectedHeader) obj.unprotected) :=
    mergeOpt_keysNodup nd1 _
  rw [hget_mergeOpt nd2, hget_mergeOpt nd1, hget_mergeOpt keysNodup_nil]
  cases hget ((r.header).getD []) k with
  | some v => rfl
  | none =>
      cases hget ((obj.unprotected).getD []) k with
      | some v => rfl
      | none =>
          cases hget ((obj.protectedHeader).getD []) k with
          | some v => rfl
          | none => rfl

/-! ## Sample values used by witnesses and counterexamples -/

/-- A header carrying `alg: dir` and `enc: A128GCM`. -/
def hdrDirGcm : Header :=
  [(strBytes "alg", strBytes "dir"), (strBytes "enc", strBytes "A128GCM")]

/-- A single-recipient envelope in compact-eligible shape. -/
def envSingle : JsonWebEncryption :=
  { protectedHeader := some hdrDirGcm
    unprotected := none
    recipients := [⟨none, [1, 2]⟩]
    aad := none
    iv := [3, 4, 5]
    ciphertext := [6, 7]
    tag := [8]
    original := none }

/-- A two-recipient envelope. -/
def envTwoRecipients : JsonWebEncryption :=
  { protectedHeader := some hdrDirGcm
    unprotected := none
    recipients := [⟨none, [1, 2, 3]⟩, ⟨none, [4]⟩]
    aad := none
    iv := [3]
    ciphertext := [6]
    tag := [8]
    original := none }

/-- A raw JWE object whose origin protected bytes carry a leading space
(insignificant JSON whitespace), so they are not the canonical
serialization of the header they decode to. -/
def rawSpacedProtected : rawJsonWebEncryption :=
  { Protected := some (32 :: serializeHeaderBytes hdrDirGcm)
    Unprotected := none
    Header := none
    Recipients := []
    Aad := none
    EncryptedKey := none
    Iv := some [9]
    Ciphertext := some [10]
    Tag := some [11] }

/-- The envelope `parseEncryptedFull rawSpacedProtected` produces. -/
def envSpaced : JsonWebEncryption :=
  { protectedHeader := some hdrDirGcm
    unprotected := none
    recipients := [⟨none, []⟩]
    aad := none
    iv := [9]
    ciphertext := [10]
    tag := [11]
    original := some rawSpacedProtected }

/-! ## C2: computeAuthData -/

/-- The protected bytes the spec says the AAD is computed over (§4.4):
the retained origin bytes of a parsed envelope, else the canonical
serialization. -/
def protectedBytesOf (obj : JsonWebEncryption) : Bytes :=
  match obj.original with
  | some orig => orig.Protected.getD []
  | none => mustSerializeJSON obj.protectedHeader

/-- The optional aad suffix of the authenticated data (§4.4): a literal `.`
followed by the base64url text of `aad`, only when `aad` is present. -/
def aadSuffix (obj : JsonWebEncryption) : Bytes :=
  match obj.aad with
  | none => []
  | some a => 46 :: base64URLEncode a

/-- **C2.** `computeAuthData` returns exactly the base64url text of the
protected-header bytes (origin bytes when parsed, canonical serialization
otherwise), followed — only if `aad` is present — by a literal `.` and the
base64url text of `aad`; in particular, on a parsed envelope with no aad the
result is `base64url(originProtectedBytes)` with no trailing suffix. -/
theorem computeAuthData_spec (obj : JsonWebEncryption) :
    computeAuthData obj = base64URLEncode (protectedBytesOf obj) ++ aadSuffix obj ∧
    (obj.original ≠ none → obj.aad = none →
      computeAuthData obj =
        base64URLEncode ((obj.original.getD default).Protected.getD [])) := by
  constructor
  · unfold computeAuthData protectedBytesOf aadSuffix bufferBase64
    cases obj.original <;> cases obj.aad <;> simp
  · intro horig haad
    unfold computeAuthData bufferBase64
    cases ho : obj.original with
    | none => exact absurd ho horig
    | some orig => rw [haad]; rfl

/-- Witness for C2 at a concrete parsed envelope without aad. -/
theorem computeAuthData_spec_witness :
    computeAuthData envSpaced =
      base64URLEncode (protectedBytesOf envSpaced) ++ aadSuffix envSpaced ∧
    computeAuthData envSpaced =
      base64URLEncode ((envSpaced.original.getD default).Protected.getD []) :=
  ⟨(computeAuthData_spec envSpaced).1,
   (computeAuthData_spec envSpaced).2 (by decide) (by decide)⟩

/-! ## C5: CompactSerialize characterization -/

/-- **C5.** `CompactSerialize` returns `UnsupportedShapeError` (and no output
text) exactly when the envelope has more than one recipient, or an
unprotected header, or a per-recipient header on its sole recipient;
otherwise it returns the five dot-joined base64url segments
`base64url(serialize(protectedHeader)) . base64url(encryptedKey) .
base64url(iv) . base64url(ciphertext) . base64url(tag)`. (Scoped to
envelopes with at least one recipient: the Go code indexes
`obj.recipients[0]`, so the envelope invariant `recipients ≠ []` applies.) -/
theorem compactSerialize_spec (obj : JsonWebEncryption)
    (hne : obj.recipients ≠ []) :
    (CompactSerialize obj = .error .unsupportedShape ↔
      (1 < obj.recipients.length ∨ obj.unprotected ≠ none ∨
        (obj.recipients.headD default).header ≠ none)) ∧
    (¬(1 < obj.recipients.length ∨ obj.unprotected ≠ none ∨
        (obj.recipients.headD default).header ≠ none) →
      CompactSerialize obj =
        .ok (base64URLEncode (mustSerializeJSON obj.protectedHeader) ++
          46 :: base64URLEncode (obj.recipients.headD default).encryptedKey ++
          46 :: base64URLEncode obj.iv ++
          46 :: base64URLEncode obj.ciphertext ++
          46 :: base64URLEncode obj.tag)) := by
  unfold CompactSerialize
  by_cases hc : 1 < obj.recipients.length ∨ obj.unprotected ≠ none ∨
      (obj.recipients.headD default).header ≠ none
  · rw [if_pos hc]
    exact ⟨⟨fun _ => hc, fun _ => rfl⟩, fun hn => absurd hc hn⟩
  · rw [if_neg hc]
    exact ⟨⟨fun hh => absurd hh (by simp), fun hh => absurd hh hc⟩,
      fun _ => rfl⟩

/-- Witness for C5: the compact-eligible sample serializes to the
five-segment text, and is not rejected. -/
theorem compactSerialize_spec_witness :
    (CompactSerialize envSingle = .error .unsupportedShape ↔
      (1 < envSingle.recipients.length ∨ envSingle.unprotected ≠ none ∨
        (envSingle.recipients.headD default).header ≠ none)) ∧
    CompactSerialize envSingle =
      .ok (base64URLEncode (mustSerializeJSON envSingle.protectedHeader) ++
        46 :: base64URLEncode (envSingle.recipients.headD default).encryptedKey ++
        46 :: base64URLEncode envSingle.iv ++
        46 :: base64URLEncode envSingle.ciphertext ++
        46 :: base64URLEncode envSingle.tag) :=
  ⟨(compactSerialize_spec envSingle (by decide)).1,
   (compactSerialize_spec envSingle (by decide)).2 (by decide)⟩

/-! ## C1: FullSerialize with multiple recipients -/

theorem mem_ite_singleton {α : Type} {P : Prop} [Decidable P] (a x : α) :
    (a ∈ if P then [x] else []) ↔ P ∧ a = x := by
  split <;> simp_all

/-- **C1, counterexample.** On a two-recipient envelope the flattened
top-level `encrypted_key` field is *not* omitted: the struct initializer of
`FullSerialize` (src/jwe.go:250) populates it from the first recipient
before the recipient-count branch, so the emitted JSON object carries both
the `recipients` array and a top-level `encrypted_key`. -/
theorem fullSerialize_multi_counterexample :
    1 < envTwoRecipients.recipients.length ∧
    (fullSerializeRaw envTwoRecipients).Header = none ∧
    (fullSerializeRaw envTwoRecipients).EncryptedKey ≠ none ∧
    "encrypted_key" ∈ emittedFields (fullSerializeRaw envTwoRecipients) := by
  decide

/-- **C1, amended.** For every envelope with more than one recipient,
`FullSerialize` emits a `recipients` array with one entry per recipient
(each carrying that recipient's header, if any, and its base64url-encoded
encrypted key), and the flattened top-level `header` field is omitted — but
the top-level `encrypted_key` field still carries the first recipient's
encrypted key (when that key is non-empty) instead of being omitted. -/
theorem fullSerialize_multi_amended (obj : JsonWebEncryption)
    (h : 1 < obj.recipients.length) :
    (fullSerializeRaw obj).Recipients =
      obj.recipients.map (fun r => ⟨r.header, base64URLEncode r.encryptedKey⟩) ∧
    (fullSerializeRaw obj).Header = none ∧
    "header" ∉ emittedFields (fullSerializeRaw obj) ∧
    (fullSerializeRaw obj).EncryptedKey =
      newBuffer (obj.recipients.headD default).encryptedKey ∧
    ((obj.recipients.headD default).encryptedKey ≠ [] →
      "encrypted_key" ∈ emittedFields (fullSerializeRaw obj)) := by
  refine ⟨?_, ?_, ?_, ?_, ?_⟩
  · simp [fullSerializeRaw, h]
  · simp [fullSerializeRaw, h]
  · simp [fullSerializeRaw, h, emittedFields, mem_ite_singleton]
  · simp [fullSerializeRaw, h]
  · intro hk
    have hnb : newBuffer (obj.recipients.headD default).encryptedKey =
        some (obj.recipients.headD default).encryptedKey := by
      unfold newBuffer
      rw [if_neg (by simpa [List.isEmpty_iff] using hk)]
    rw [List.headD_eq_head?] at hnb
    simp [fullSerializeRaw, h, emittedFields, mem_ite_singleton, hnb]

/-- Witness for the amended C1 at the two-recipient sample. -/
theorem fullSerialize_multi_amended_witness :
    (fullSerializeRaw envTwoRecipients).Recipients =
      envTwoRecipients.recipients.map (fun r =>
        ⟨r.header, base64URLEncode r.encryptedKey⟩) ∧
    (fullSerializeRaw envTwoRecipients).Header = none ∧
    "header" ∉ emittedFields (fullSerializeRaw envTwoRecipients) ∧
    (fullSerializeRaw envTwoRecipients).EncryptedKey =
      newBuffer (envTwoRecipients.recipients.headD default).encryptedKey ∧
    "encrypted_key" ∈ emittedFields (fullSerializeRaw envTwoRecipients) := by
  obtain ⟨h1, h2, h3, h4, h5⟩ :=
    fullSerialize_multi_amended envTwoRecipients (by decide)
  exact ⟨h1, h2, h3, h4, h5 (by decide)⟩

/-! ## C3: origin bytes, AAD, and re-serialization -/

/-- **C3, counterexample.** A parsed envelope whose origin protected bytes
are non-canonical (here: a leading space): full-JSON re-serialization does
*not* echo the origin bytes — `FullSerialize` re-serializes
`protectedHeader` canonically (src/jwe.go:270). -/
theorem origin_bytes_counterexample :
    parseEncryptedFull rawSpacedProtected = .ok envSpaced ∧
    envSpaced.original = some rawSpacedProtected ∧
    (fullSerializeRaw envSpaced).Protected ≠ rawSpacedProtected.Protected := by
  refine ⟨rfl, rfl, by decide⟩

/-- **C3, amended.** For every parsed envelope (origin bytes present), the
origin bytes are used verbatim for AAD computation only; the `protected`
field of full-JSON re-serialization is always the canonical serialization of
`protectedHeader`, for parsed and freshly constructed envelopes alike. -/
theorem origin_bytes_amended (obj : JsonWebEncryption) :
    (∀ orig, obj.original = some orig →
      computeAuthData obj =
        base64URLEncode (orig.Protected.getD []) ++ aadSuffix obj) ∧
    (fullSerializeRaw obj).Protected =
      newBuffer (mustSerializeJSON obj.protectedHeader) := by
  constructor
  · intro orig ho
    unfold computeAuthData bufferBase64 aadSuffix
    rw [ho]
    cases obj.aad <;> simp
  · rfl

/-- Witness for the amended C3 at the concrete parsed sample. -/
theorem origin_bytes_amended_witness :
    computeAuthData envSpaced =
      base64URLEncode (rawSpacedProtected.Protected.getD []) ++
        aadSuffix envSpaced ∧
    (fullSerializeRaw envSpaced).Protected =
      newBuffer (mustSerializeJSON envSpaced.protectedHeader) :=
  ⟨(origin_bytes_amended envSpaced).1 rawSpacedProtected rfl,
   (origin_bytes_amended envSpaced).2⟩

/-! ## C6: the merged-header validation of full parsing -/

/-- A protected header with neither `alg` nor `enc`. -/
def hdrKid : Header := [(strBytes "kid", strBytes "k1")]

/-- A recipient-level header supplying only `alg`. -/
def hdrAlgOnly : Header := [(strBytes "alg", strBytes "dir")]

/-- A raw JWE object whose protected header lacks `enc` while the
recipient-level (flattened) header supplies `alg`. -/
def rawMissingEnc : rawJsonWebEncryption :=
  { Protected := some (serializeHeaderBytes hdrKid)
    Unprotected := none
    Header := some hdrAlgOnly
    Recipients := []
    Aad := none
    EncryptedKey := none
    Iv := some [1]
    Ciphertext := some [2]
    Tag := some [3] }

/-- **C6.** During full-JSON parsing, once the protected-header and
recipient-building stages have succeeded, the parse fails with
`MissingAlgEnc` whenever any built recipient's merged header (protected,
then unprotected, then recipient header) has an absent-or-empty `alg` or
`enc`. -/
theorem parseFull_missingAlgEnc (parsed : rawJsonWebEncryption)
    (ph : Option Header) (recips : List recipientInfo)
    (hp : parseProtectedStage parsed = .ok ph)
    (hr : buildRecipientsStage parsed = .ok recips)
    (hbad : ∃ r ∈ recips,
      getAlg (mergedHeaders (assembleEnvelope parsed ph recips) (some r)) = [] ∨
      getEnc (mergedHeaders (assembleEnvelope parsed ph recips) (some r)) = []) :
    parseEncryptedFull parsed = .error .missingAlgEnc := by
  unfold parseEncryptedFull
  rw [hp, hr]
  have hb : hasBadRecipient (assembleEnvelope parsed ph recips) = true := by
    unfold hasBadRecipient
    rw [List.any_eq_true]
    obtain ⟨r, hm, hc⟩ := hbad
    refine ⟨r, hm, ?_⟩
    rcases hc with h | h <;> simp [h]
  simp [hb]

/-- Witness for C6: a protected header lacking `enc` fails even though the
recipient-level header supplies `alg`. -/
theorem parseFull_missingAlgEnc_witness :
    parseEncryptedFull rawMissingEnc = .error .missingAlgEnc :=
  parseFull_missingAlgEnc rawMissingEnc (some hdrKid) [⟨some hdrAlgOnly, []⟩]
    rfl rfl ⟨⟨some hdrAlgOnly, []⟩, by decide, by decide⟩

/-! ## C8: building the recipient list in full parsing -/

theorem decodeRecipients_forall₂ {l : List rawRecipientInfo}
    {out : List recipientInfo} (h : decodeRecipients l = .ok out) :
    List.Forall₂ (fun ri r => r.header = ri.Header ∧
      base64URLDecode ri.EncryptedKey = some r.encryptedKey) l out := by
  induction l generalizing out with
  | nil =>
      unfold decodeRecipients at h
      cases h
      exact List.Forall₂.nil
  | cons r t ih =>
      unfold decodeRecipients at h
      cases hd : base64URLDecode r.EncryptedKey with
      | none => rw [hd] at h; cases h
      | some k =>
          rw [hd] at h
          cases hrec : decodeRecipients t with
          | error e => rw [hrec] at h; cases h
          | ok rest =>
              rw [hrec] at h
              cases h
              exact List.Forall₂.cons ⟨rfl, hd⟩ (ih hrec)

/-- Inversion of a successful full parse into its stages. -/
theorem parseFull_ok_inv {parsed : rawJsonWebEncryption}
    {obj : JsonWebEncryption} (hok : parseEncryptedFull parsed = .ok obj) :
    ∃ ph recips, parseProtectedStage parsed = .ok ph ∧
      buildRecipientsStage parsed = .ok recips ∧
      obj = assembleEnvelope parsed ph recips := by
  unfold parseEncryptedFull at hok
  split at hok
  · cases hok
  · rename_i ph hp
    split at hok
    · cases hok
    · rename_i recips hr
      split at hok
      · cases hok
      · cases hok
        exact ⟨ph, recips, hp, hr, rfl⟩

/-- **C8.** During full-JSON parsing, if the top-level `recipients` array is
absent or empty, exactly one recipient is synthesized from the flattened
top-level header and encrypted-key fields (both optional; an absent/empty
encrypted key yields an empty key and is valid); otherwise one recipient is
built per array entry, with its encrypted-key string base64url-decoded. -/
theorem parseFull_recipients (parsed : rawJsonWebEncryption)
    (obj : JsonWebEncryption) (hok : parseEncryptedFull parsed = .ok obj) :
    (parsed.Recipients = [] →
      obj.recipients = [⟨parsed.Header, parsed.EncryptedKey.getD []⟩]) ∧
    (parsed.Recipients ≠ [] →
      List.Forall₂ (fun ri r => r.header = ri.Header ∧
        base64URLDecode ri.EncryptedKey = some r.encryptedKey)
        parsed.Recipients obj.recipients) := by
  obtain ⟨ph, recips, hp, hr, rfl⟩ := parseFull_ok_inv hok
  constructor
  · intro hemp
    unfold buildRecipientsStage at hr
    rw [if_pos (by simp [hemp])] at hr
    cases hr
    rfl
  · intro hne
    unfold buildRecipientsStage at hr
    rw [if_neg (by simpa [List.isEmpty_iff] using hne)] at hr
    exact decodeRecipients_forall₂ hr

/-- The envelope `parseEncryptedFull rawFlattened` produces. -/
def rawFlattened : rawJsonWebEncryption :=
  { Protected := some (serializeHeaderBytes hdrDirGcm)
    Unprotected := none
    Header := none
    Recipients := []
    Aad := none
    EncryptedKey := none
    Iv := some [1]
    Ciphertext := some [2]
    Tag := some [3] }

/-- Witness for C8: an absent `recipients` array with an absent encrypted
key parses into exactly one recipient with an empty key. -/
theorem parseFull_recipients_witness :
    (assembleEnvelope rawFlattened (some hdrDirGcm) [⟨none, []⟩]).recipients
      = [⟨rawFlattened.Header, rawFlattened.EncryptedKey.getD []⟩] :=
  (parseFull_recipients rawFlattened
      (assembleEnvelope rawFlattened (some hdrDirGcm) [⟨none, []⟩])
      rfl).1 rfl

/-! ## C10: shape of compact-parsed envelopes -/

/-- **C10.** Every envelope the compact parser returns successfully has
exactly one recipient, that recipient's header absent, and no unprotected
header; consequently `CompactSerialize` on a compact-parsed envelope never
returns `UnsupportedShapeError` — it produces output. -/
theorem compactParse_shape (input : Str) (obj : JsonWebEncryption)
    (hok : parseEncryptedCompact input = .ok obj) :
    obj.recipients.length = 1 ∧
    (obj.recipients.headD default).header = none ∧
    obj.unprotected = none ∧
    ∃ s, CompactSerialize obj = .ok s := by
  unfold parseEncryptedCompact at hok
  repeat' split at hok
  all_goals cases hok
  refine ⟨rfl, rfl, rfl, ?_⟩
  unfold CompactSerialize
  rw [if_neg (by simp)]
  exact ⟨_, rfl⟩

/-- The compact serialization of the single-recipient sample. -/
def compactSample : Str :=
  base64URLEncode (serializeHeaderBytes hdrDirGcm) ++
    46 :: base64URLEncode [1, 2] ++ 46 :: base64URLEncode [3, 4, 5] ++
    46 :: base64URLEncode [6, 7] ++ 46 :: base64URLEncode [8]

/-- The envelope `parseEncryptedCompact compactSample` produces. -/
def envCompactParsed : JsonWebEncryption :=
  { protectedHeader := some hdrDirGcm
    unprotected := none
    recipients := [⟨none, [1, 2]⟩]
    aad := none
    iv := [3, 4, 5]
    ciphertext := [6, 7]
    tag := [8]
    original := some
      { Protected := some (serializeHeaderBytes hdrDirGcm)
        Unprotected := none
        Header := none
        Recipients := []
        Aad := none
        EncryptedKey := some [1, 2]
        Iv := some [3, 4, 5]
        Ciphertext := some [6, 7]
        Tag := some [8] } }

/-- Witness for C10 at a concrete compact text. -/
theorem compactParse_shape_witness :
    envCompactParsed.recipients.length = 1 ∧
    (envCompactParsed.recipients.headD default).header = none ∧
    envCompactParsed.unprotected = none ∧
    ∃ s, CompactSerialize envCompactParsed = .ok s :=
  compactParse_shape compactSample envCompactParsed rfl

/-! ## C7: error order of compact parsing -/

/-- A compact text with exactly five segments: `e30` (decoding to the bytes
of `\x7b\x7d`, an empty header), then `!` (an invalid base64url character),
then three empty segments. -/
def compactBadSegment : Str := [101, 51, 48, 46, 33, 46, 46, 46]

/-- **C7, counterexample.** On a five-segment compact text whose second
segment holds a non-base64url character, parsing does not fail with
`Base64Error`: the header stage runs first, and here the decoded protected
header is empty, so the result is `MissingAlgEnc`. -/
theorem compactParse_badSegment_counterexample :
    splitOnByte 46 compactBadSegment
      = [[101, 51, 48], [33], [], [], []] ∧
    (33 ∈ ([33] : Str) ∧ b64Val 33 = none) ∧
    parseEncryptedCompact compactBadSegment = .error .missingAlgEnc ∧
    ¬ parseEncryptedCompact compactBadSegment = .error .base64Error := by
  refine ⟨by decide, ⟨by decide, by decide⟩, rfl, ?_⟩
  intro hh
  have : ParseError.missingAlgEnc = ParseError.base64Error :=
    Except.error.inj ((rfl :
      parseEncryptedCompact compactBadSegment
        = .error .missingAlgEnc).symm.trans hh)
  cases this

/-- **C7, amended.** Compact parsing splits the (pre-stripped) input on `.`
and fails with `MalformedCompact` for any segment count other than 5. With
exactly 5 segments: a non-base64url character in segment 0 yields
`Base64Error`; a non-base64url character in any of segments 1–4 yields
`Base64Error` provided the earlier stages succeed (segment 0 decodes, its
bytes parse to a header, and that header carries non-empty `alg` and `enc`)
— otherwise the earlier stage's error takes precedence. -/
theorem compactParse_errors (input : Str) :
    ((splitOnByte 46 input).length ≠ 5 →
      parseEncryptedCompact input = .error .malformedCompact) ∧
    (∀ s0 s1 s2 s3 s4, splitOnByte 46 input = [s0, s1, s2, s3, s4] →
      ((∃ c ∈ s0, b64Val c = none) →
        parseEncryptedCompact input = .error .base64Error) ∧
      (∀ bs hp, base64URLDecode s0 = some bs →
        headerValOfBytes bs = some hp →
        ¬(getAlg hp = [] ∨ getEnc hp = []) →
        ((∃ c ∈ s1, b64Val c = none) ∨ (∃ c ∈ s2, b64Val c = none) ∨
         (∃ c ∈ s3, b64Val c = none) ∨ (∃ c ∈ s4, b64Val c = none)) →
        parseEncryptedCompact input = .error .base64Error)) := by
  constructor
  · intro hlen
    unfold parseEncryptedCompact
    rcases hsp : splitOnByte 46 input with
        _ | ⟨s0, _ | ⟨s1, _ | ⟨s2, _ | ⟨s3, _ | ⟨s4, _ | ⟨s5, rest⟩⟩⟩⟩⟩⟩
    · rfl
    · rfl
    · rfl
    · rfl
    · rfl
    · rw [hsp] at hlen
      simp at hlen
    · rfl
  · intro s0 s1 s2 s3 s4 hsp
    unfold parseEncryptedCompact
    rw [hsp]
    dsimp only
    constructor
    · rintro ⟨c, hc, hbad⟩
      rw [decode_none_of_badChar hc hbad]
    · intro bs hp hd0 hh halg hbaddisj
      rw [hd0]
      simp only []
      rw [hh]
      simp only []
      rw [if_neg halg]
      rcases hbaddisj with ⟨c, hc, hbad⟩ | hrest
      · rw [decode_none_of_badChar hc hbad]
      · cases hd1 : base64URLDecode s1 with
        | none => rfl
        | some k1 =>
            rcases hrest with ⟨c, hc, hbad⟩ | hrest
            · rw [decode_none_of_badChar hc hbad]
            · cases hd2 : base64URLDecode s2 with
              | none => rfl
              | some k2 =>
                  rcases hrest with ⟨c, hc, hbad⟩ | ⟨c, hc, hbad⟩
                  · rw [decode_none_of_badChar hc hbad]
                  · cases hd3 : base64URLDecode s3 with
                    | none => rfl
                    | some k3 => rw [decode_none_of_badChar hc hbad]

/-- Witness for the amended C7: a four-segment input gives
`MalformedCompact`, and a five-segment input with a sound header but a bad
second segment gives `Base64Error`. -/
theorem compactParse_errors_witness :
    parseEncryptedCompact [46, 46, 46] = .error .malformedCompact ∧
    parseEncryptedCompact
        (base64URLEncode (serializeHeaderBytes hdrDirGcm) ++
          46 :: 33 :: 46 :: 46 :: 46 :: []) = .error .base64Error := by
  constructor
  · exact (compactParse_errors [46, 46, 46]).1 (by decide)
  · refine ((compactParse_errors _).2
      (base64URLEncode (serializeHeaderBytes hdrDirGcm)) [33] [] [] []
      (by decide)).2 (serializeHeaderBytes hdrDirGcm) hdrDirGcm
      (by decide) (by decide) (by decide) (Or.inl ⟨33, by decide, by decide⟩)

/-! ## C4: compact round trip -/

theorem b64_isSome_ne {c d : Nat} (h : (b64Val c).isSome)
    (hd : b64Val d = none) : c ≠ d := by
  intro hh
  subst hh
  rw [hd] at h
  cases h

theorem b64_not_space {c : Nat} (h : (b64Val c).isSome) :
    isSpaceByte c = false := by
  have h32 : c ≠ 32 := b64_isSome_ne h (by decide)
  have h9 : c ≠ 9 := b64_isSome_ne h (by decide)
  have h10 : c ≠ 10 := b64_isSome_ne h (by decide)
  have h13 : c ≠ 13 := b64_isSome_ne h (by decide)
  unfold isSpaceByte
  simp [h32, h9, h10, h13]

theorem encode_no_dot {bs : Bytes} (hb : allBytes bs) :
    ∀ c ∈ base64URLEncode bs, c ≠ 46 :=
  fun c hc => b64_isSome_ne (encode_mem_val hb c hc) (by decide)

theorem encode_no_space {bs : Bytes} (hb : allBytes bs) :
    ∀ c ∈ base64URLEncode bs, isSpaceByte c = false :=
  fun c hc => b64_not_space (encode_mem_val hb c hc)

/-- The encoding of a non-empty byte string starts with the digit of the
first byte's top sextet. -/
theorem encode_cons_shape (b : Nat) (l : Bytes) :
    ∃ t, base64URLEncode (b :: l) = b64Char (b / 4) :: t := by
  match l with
  | [] => exact ⟨_, rfl⟩
  | [b2] => exact ⟨_, rfl⟩
  | b2 :: b3 :: r => exact ⟨_, rfl⟩

/-- **C4.** For every envelope with exactly one recipient, no unprotected
header, and no per-recipient header — quantified here by its components,
with the envelope invariant that the protected header carries non-empty
`alg` and `enc`, and wellformedness of the byte strings (genuine bytes; the
modelled JSON codec additionally asks header strings to avoid the `"` and
`,` delimiters) — serializing with `CompactSerialize` and then parsing the
result with `ParseEncrypted` succeeds and yields an envelope whose merged
header, iv, ciphertext, tag, and sole recipient's encrypted key equal the
originals exactly. -/
theorem compact_roundtrip (u : Str → Option rawJsonWebEncryption)
    (p : Header) (key iv ct tag : Bytes) (aadv : Option Bytes)
    (orig : Option rawJsonWebEncryption)
    (hokp : okHeader p)
    (halg : ¬(getAlg p = [] ∨ getEnc p = []))
    (hkey : allBytes key) (hiv : allBytes iv) (hct : allBytes ct)
    (htag : allBytes tag) :
    ∃ s obj',
      CompactSerialize
          ⟨some p, none, [⟨none, key⟩], aadv, iv, ct, tag, orig⟩ = .ok s ∧
      ParseEncrypted u s = .ok obj' ∧
      mergedHeaders obj' (some (obj'.recipients.headD default)) =
        mergedHeaders ⟨some p, none, [⟨none, key⟩], aadv, iv, ct, tag, orig⟩
          (some ⟨none, key⟩) ∧
      obj'.iv = iv ∧ obj'.ciphertext = ct ∧ obj'.tag = tag ∧
      obj'.recipients.length = 1 ∧
      (obj'.recipients.headD default).encryptedKey = key := by
  have hpb : allBytes (serializeHeaderBytes p) := serialize_allBytes hokp
  refine ⟨base64URLEncode (serializeHeaderBytes p) ++
      46 :: (base64URLEncode key ++ 46 :: (base64URLEncode iv ++
        46 :: (base64URLEncode ct ++ 46 :: base64URLEncode tag))),
    ⟨some p, none, [⟨none, key⟩], none, iv, ct, tag,
      some ⟨some (serializeHeaderBytes p), none, none, [], none,
        some key, some iv, some ct, some tag⟩⟩,
    ?_, ?_, rfl, rfl, rfl, rfl, rfl, rfl⟩
  · unfold CompactSerialize
    rw [if_neg (by simp)]
    dsimp only [mustSerializeJSON, List.headD]
    simp [List.append_assoc]
  · -- the serialized text is whitespace-free
    have hstrip : stripWhitespace
        (base64URLEncode (serializeHeaderBytes p) ++
          46 :: (base64URLEncode key ++ 46 :: (base64URLEncode iv ++
            46 :: (base64URLEncode ct ++ 46 :: base64URLEncode tag)))) =
        base64URLEncode (serializeHeaderBytes p) ++
          46 :: (base64URLEncode key ++ 46 :: (base64URLEncode iv ++
            46 :: (base64URLEncode ct ++ 46 :: base64URLEncode tag))) := by
      apply stripWhitespace_id
      intro c hc
      simp only [List.mem_append, List.mem_cons] at hc
      rcases hc with h | h | h | h | h | h | h | h | h
      · exact encode_no_space hpb c h
      · subst h; decide
      · exact encode_no_space hkey c h
      · subst h; decide
      · exact encode_no_space hiv c h
      · subst h; decide
      · exact encode_no_space hct c h
      · subst h; decide
      · exact encode_no_space htag c h
    -- the first character is a base64url digit, not a brace
    obtain ⟨t0, ht0⟩ := encode_cons_shape 123 (encodePairs p ++ [125])
    have ht0' : base64URLEncode (serializeHeaderBytes p) = 101 :: t0 := by
      rw [show serializeHeaderBytes p = 123 :: (encodePairs p ++ [125]) from rfl]
      rw [ht0]
      rfl
    unfold ParseEncrypted
    rw [hstrip, ht0']
    rw [if_neg (by simp)]
    -- split into the five segments
    have hsp : splitOnByte 46
        ((101 :: t0) ++
          46 :: (base64URLEncode key ++ 46 :: (base64URLEncode iv ++
            46 :: (base64URLEncode ct ++ 46 :: base64URLEncode tag)))) =
        [101 :: t0, base64URLEncode key, base64URLEncode iv,
          base64URLEncode ct, base64URLEncode tag] := by
      rw [splitOnByte_append (ht0' ▸ encode_no_dot hpb),
        splitOnByte_append (encode_no_dot hkey),
        splitOnByte_append (encode_no_dot hiv),
        splitOnByte_append (encode_no_dot hct),
        splitOnByte_no_sep (encode_no_dot htag)]
    unfold parseEncryptedCompact
    rw [hsp]
    dsimp only
    rw [← ht0', decode_encode hpb]
    dsimp only
    rw [headerValOfBytes_serialize hokp]
    dsimp only
    rw [if_neg halg, decode_encode hkey]
    dsimp only
    rw [decode_encode hiv]
    dsimp only
    rw [decode_encode hct]
    dsimp only
    rw [decode_encode htag]

/-- Witness for C4 at the concrete compact-eligible sample. -/
theorem compact_roundtrip_witness :
    ∃ s obj',
      CompactSerialize
          ⟨some hdrDirGcm, none, [⟨none, [1, 2]⟩], none, [3, 4, 5], [6, 7],
            [8], none⟩ = .ok s ∧
      ParseEncrypted (fun _ => none) s = .ok obj' ∧
      mergedHeaders obj' (some (obj'.recipients.headD default)) =
        mergedHeaders
          ⟨some hdrDirGcm, none, [⟨none, [1, 2]⟩], none, [3, 4, 5], [6, 7],
            [8], none⟩ (some ⟨none, [1, 2]⟩) ∧
      obj'.iv = [3, 4, 5] ∧ obj'.ciphertext = [6, 7] ∧ obj'.tag = [8] ∧
      obj'.recipients.length = 1 ∧
      (obj'.recipients.headD default).encryptedKey = [1, 2] :=
  compact_roundtrip (fun _ => none) hdrDirGcm [1, 2] [3, 4, 5] [6, 7] [8]
    none none (by decide) (by decide) (by decide) (by decide) (by decide)
    (by decide)

end Jose
